import Mathlib

/-!
# SimpleDNS: the domain resolution pipeline of `main.go`

A shallow embedding of `splitRules`, `resolveDomain` and `resolveDomainOverDoH`
together with the few functions of Go's `strings` package they call.

Modelling conventions
* A Go `string` is a `List Char`.  Every separator the program looks at (`.` and `*`)
  is a single ASCII byte, so splitting and trimming on characters and on bytes agree.
* A Go `map[string]V` (and the `sync.Map` used as cache) is a partial function
  `GoString → Option V`; a store overrides one key.
* The `rules` argument of `splitRules` is the sequence of key/value pairs in the order
  in which `range` happens to visit them; the keys of a Go map are pairwise distinct.
* `time.Time` is an integer count of nanoseconds (unbounded, so `Add` never wraps); the
  two calls of `time.Now()` in `resolveDomain` are two separate readings.
* The HTTP exchange performed by `resolveDomainOverDoH` is an input of the model.
-/

namespace SimpleDNS

/-- Go `string`. -/
abbrev GoString := List Char

/-- Go `map[string]V`, also used for `sync.Map` with string keys. -/
abbrev GoMap (V : Type) := GoString → Option V

/-- The value of `make(map[string]V)`. -/
def GoMap.empty {V : Type} : GoMap V := fun _ => none

/-- Assignment `m[k] = v` (and `sync.Map.Store`). -/
def GoMap.store {V : Type} (m : GoMap V) (k : GoString) (v : V) : GoMap V :=
  fun k' => if k' = k then some v else m k'

/-! ## Go `strings` package -/

/-- Go `strings.HasPrefix`: `len(s) >= len(p) && s[:len(p)] == p`. -/
def HasPrefix (s p : GoString) : Bool :=
  decide (p.length ≤ s.length) && (s.take p.length == p)

/-- Go `strings.HasSuffix`: `len(s) >= len(p) && s[len(s)-len(p):] == p`. -/
def HasSuffix (s p : GoString) : Bool :=
  decide (p.length ≤ s.length) && (s.drop (s.length - p.length) == p)

/-- Go `strings.TrimPrefix`. -/
def TrimPrefix (s p : GoString) : GoString :=
  if HasPrefix s p then s.drop p.length else s

/-- Go `strings.TrimSuffix`. -/
def TrimSuffix (s p : GoString) : GoString :=
  if HasSuffix s p then s.take (s.length - p.length) else s

/-- Cut `s` at the first occurrence of the byte `sep`: the text before it and the
text after it, or `none` when `sep` does not occur (`strings.Index` being negative). -/
def cutFirst (sep : Char) : GoString → Option (GoString × GoString)
  | [] => none
  | c :: cs =>
    if c = sep then some ([], cs)
    else match cutFirst sep cs with
      | none => none
      | some (a, b) => some (c :: a, b)

/-- Go `strings.SplitN(s, sep, 2)` for a one-byte separator: `[s]` when `sep` does not
occur in `s`, otherwise the text before the first `sep` and the text after it. -/
def SplitN2 (s : GoString) (sep : Char) : List GoString :=
  match cutFirst sep s with
  | none => [s]
  | some (a, b) => [a, b]

/-! ## Program state -/

/-- Go `time.Time`, as nanoseconds. -/
abbrev Time := Int

/-- Go `time.Minute`, a `Duration` in nanoseconds. -/
def Minute : Int := 60 * 1000000000

/-- Source type `IPCacheEntry`. -/
structure IPCacheEntry where
  IP : GoString
  ExpireAt : Time
deriving DecidableEq

/-- The package-level variables `matchDomainMap`, `matchDomainAndSubDomainMap`, `ipCache`. -/
structure Globals where
  matchDomainMap : GoMap GoString
  matchDomainAndSubDomainMap : GoMap GoString
  ipCache : GoMap IPCacheEntry

/-- The initial values of the package-level variables. -/
def Globals.init : Globals :=
  { matchDomainMap := GoMap.empty
    matchDomainAndSubDomainMap := GoMap.empty
    ipCache := GoMap.empty }

/-- One iteration of the `range` loop of `splitRules`. -/
def splitRulesStep (g : Globals) (rule : GoString × GoString) : Globals :=
  if HasPrefix rule.1 ['*', '.'] then
    { g with matchDomainAndSubDomainMap :=
        g.matchDomainAndSubDomainMap.store (TrimPrefix rule.1 ['*', '.']) rule.2 }
  else
    { g with matchDomainMap := g.matchDomainMap.store rule.1 rule.2 }

/-- Source function `splitRules`; `rules` lists the map entries in iteration order. -/
def splitRules (g : Globals) (rules : List (GoString × GoString)) : Globals :=
  rules.foldl splitRulesStep g

/-! ## The DoH client -/

/-- One element of the `Answer` array of the decoded DoH response; `Type_` is the
source field `Type`. -/
structure DoHAnswer where
  Type_ : Int
  Data : GoString
deriving DecidableEq

/-- The constant `dns.TypeA` of `github.com/miekg/dns`, converted by `int(...)`. -/
def TypeA : Int := 1

/-- Go `http.StatusOK`. -/
def StatusOK : Nat := 200

/-- What happens to the GET request built by `resolveDomainOverDoH`. -/
inductive HttpExchange where
  /-- `http.NewRequest` returned an error. -/
  | newRequestError
  /-- `dohHttpClient.Do` returned an error. -/
  | doError
  /-- A response arrived: its status code and the outcome of decoding its body
  (`none` when `Decode` returns an error, otherwise the `Answer` list). -/
  | response (statusCode : Nat) (decoded : Option (List DoHAnswer))

/-- The network seen by the DoH client: the exchange for a given URL and `name` parameter. -/
abbrev Network := GoString → GoString → HttpExchange

/-- The `for _, answer := range dohResponse.Answer` loop of `resolveDomainOverDoH`. -/
def scanAnswers : List DoHAnswer → GoString
  | [] => []
  | answer :: rest => if answer.Type_ = TypeA then answer.Data else scanAnswers rest

/-- Source function `resolveDomainOverDoH`. -/
def resolveDomainOverDoH (net : Network) (dohURL domain : GoString) : GoString :=
  match net dohURL domain with
  | .newRequestError => []
  | .doError => []
  | .response statusCode decoded =>
    if statusCode ≠ StatusOK then []
    else match decoded with
      | none => []
      | some answers => scanAnswers answers

/-! ## The resolution pipeline -/

/-- The `for` loop of `resolveDomain` (lines 117 to 126), started with `subDomain`.
The first component is the IP of the matching suffix rule, or `none` when
the loop leaves through `break`; the second lists, in order, the values of
`subDomain` that were looked up in `matchDomainAndSubDomainMap`. -/
def subDomainLoop (m : GoMap GoString) (subDomain : GoString) :
    Option GoString × List GoString :=
  match m subDomain with
  | some ip => (some ip, [subDomain])
  | none =>
    match h : SplitN2 subDomain '.' with
    | _ :: next :: _ =>
      let r := subDomainLoop m next
      (r.1, subDomain :: r.2)
    | _ => (none, [subDomain])
termination_by subDomain.length
decreasing_by
  have cut : ∀ (s a b : GoString), cutFirst '.' s = some (a, b) → b.length < s.length := by
    intro s
    induction s with
    | nil => intro a b hc; simp [cutFirst] at hc
    | cons c cs ih =>
      intro a b hc
      unfold cutFirst at hc
      split at hc
      · simp only [Option.some.injEq, Prod.mk.injEq] at hc
        rw [← hc.2]
        exact Nat.lt_succ_self _
      · cases hcs : cutFirst '.' cs with
        | none => simp [hcs] at hc
        | some ab =>
          simp only [hcs, Option.some.injEq, Prod.mk.injEq] at hc
          have := ih ab.1 ab.2 hcs
          rw [← hc.2]
          exact Nat.lt_succ_of_lt this
  unfold SplitN2 at h
  cases hc : cutFirst '.' subDomain with
  | none => simp [hc] at h
  | some ab =>
    simp only [hc, List.cons.injEq] at h
    rw [← h.2.1]
    exact cut subDomain ab.1 ab.2 hc

/-- The outcome of one call of `resolveDomain`: its two return values, the cache
after the call, and the `domain` arguments of the calls of `resolveDomainOverDoH`
it made. -/
structure ResolveResult where
  ip : GoString
  source : GoString
  ipCache : GoMap IPCacheEntry
  dohCalls : List GoString

/-- Lines 135 to 145 of `resolveDomain`: the DoH lookup and the write-through into
the cache.  `nowStore` is the reading of `time.Now()` at the store. -/
def resolveDomainFallback (g : Globals) (net : Network) (nowStore : Time)
    (dohURL domain cacheKey : GoString) : ResolveResult :=
  let ret := resolveDomainOverDoH net dohURL domain
  if ret ≠ [] then
    ⟨ret, "DoH".toList, g.ipCache.store cacheKey ⟨ret, nowStore + 10 * Minute⟩, [domain]⟩
  else
    ⟨[], [], g.ipCache, [domain]⟩

/-- Source function `resolveDomain`.  `nowLoad` is the reading of `time.Now()` at the
expiry test, `nowStore` the reading at the store. -/
def resolveDomain (g : Globals) (net : Network) (nowLoad nowStore : Time)
    (dohURL domain : GoString) : ResolveResult :=
  let domain := TrimSuffix domain ['.']
  match g.matchDomainMap domain with
  | some ip => ⟨ip, "domain rule".toList, g.ipCache, []⟩
  | none =>
    match (subDomainLoop g.matchDomainAndSubDomainMap domain).1 with
    | some ip => ⟨ip, "subdomain rule".toList, g.ipCache, []⟩
    | none =>
      let cacheKey := domain
      match g.ipCache cacheKey with
      | some ipEntry =>
        if nowLoad < ipEntry.ExpireAt then ⟨ipEntry.IP, "cache".toList, g.ipCache, []⟩
        else resolveDomainFallback g net nowStore dohURL domain cacheKey
      | none => resolveDomainFallback g net nowStore dohURL domain cacheKey

/-- The inputs of one call of `resolveDomain`: the network and the clock readings it
meets, and its two arguments. -/
structure Call where
  net : Network
  nowLoad : Time
  nowStore : Time
  dohURL : GoString
  domain : GoString

/-- The package-level state after a sequence of calls of `resolveDomain` made one after
the other, as `ServeDNS` makes them for the questions of a message; the calls share
`ipCache`. -/
def resolveDomainSeq (g : Globals) (calls : List Call) : Globals :=
  calls.foldl
    (fun g c =>
      { g with ipCache := (resolveDomain g c.net c.nowLoad c.nowStore c.dohURL c.domain).ipCache })
    g

/-- Lines 111 to 133 of `resolveDomain`, the part of a call that only reads the state:
`some r` when the call returns there (exact rule, suffix rule or unexpired cache
entry), `none` when it goes on to the DoH request of line 135. -/
def resolveDomainLookup (g : Globals) (nowLoad : Time) (domain : GoString) :
    Option ResolveResult :=
  let domain := TrimSuffix domain ['.']
  match g.matchDomainMap domain with
  | some ip => some ⟨ip, "domain rule".toList, g.ipCache, []⟩
  | none =>
    match (subDomainLoop g.matchDomainAndSubDomainMap domain).1 with
    | some ip => some ⟨ip, "subdomain rule".toList, g.ipCache, []⟩
    | none =>
      let cacheKey := domain
      match g.ipCache cacheKey with
      | some ipEntry =>
        if nowLoad < ipEntry.ExpireAt then some ⟨ipEntry.IP, "cache".toList, g.ipCache, []⟩
        else none
      | none => none

/-- Two calls of `resolveDomain` that overlap, as the handlers of two queries may: call
`b` executes lines 111 to 133 (rule lookup and `ipCache.Load`) on the state `g`, before
call `a` has stored anything, and its DoH request and `ipCache.Store` (lines 135 to 145)
come after call `a` has finished.  The results of `a` and of `b`, in this order; the
cache of the second result is the cache after both calls. -/
def resolveDomainOverlap (g : Globals) (a b : Call) : ResolveResult × ResolveResult :=
  let ra := resolveDomain g a.net a.nowLoad a.nowStore a.dohURL a.domain
  let rb :=
    match resolveDomainLookup g b.nowLoad b.domain with
    | some r => { r with ipCache := ra.ipCache }
    | none =>
      resolveDomainFallback { g with ipCache := ra.ipCache } b.net b.nowStore b.dohURL
        (TrimSuffix b.domain ['.']) (TrimSuffix b.domain ['.'])
  (ra, rb)

/-- The domain `t` is covered by the suffix `s`: it is `s` itself or ends in `"." ++ s`. -/
def coveredBy (t s : GoString) : Prop :=
  t = s ∨ HasSuffix t ('.' :: s) = true

instance (t s : GoString) : Decidable (coveredBy t s) := by
  unfold coveredBy; infer_instance

/-- Consecutive candidates of the loop: the later one is the text after the first
`.` of the earlier one. -/
def nextCandidate (c c' : GoString) : Prop :=
  ∃ a, '.' ∉ a ∧ c = a ++ '.' :: c'

/-! ## Facts about the string functions -/

theorem HasSuffix_iff (s p : GoString) : HasSuffix s p = true ↔ p <:+ s := by
  unfold HasSuffix
  constructor
  · intro h
    simp only [Bool.and_eq_true, decide_eq_true_eq, beq_iff_eq] at h
    have key := List.take_append_drop (s.length - p.length) s
    rw [h.2] at key
    exact ⟨_, key⟩
  · rintro ⟨q, rfl⟩
    simp

theorem HasPrefix_iff (s p : GoString) : HasPrefix s p = true ↔ p <+: s := by
  unfold HasPrefix
  constructor
  · intro h
    simp only [Bool.and_eq_true, decide_eq_true_eq, beq_iff_eq] at h
    have key := List.take_append_drop p.length s
    rw [h.2] at key
    exact ⟨_, key⟩
  · rintro ⟨q, rfl⟩
    simp

theorem coveredBy_iff (t s : GoString) :
    coveredBy t s ↔ t = s ∨ ∃ p, t = p ++ '.' :: s := by
  unfold coveredBy
  rw [HasSuffix_iff]
  constructor
  · rintro (h | ⟨p, h⟩)
    · exact Or.inl h
    · exact Or.inr ⟨p, h.symm⟩
  · rintro (h | ⟨p, h⟩)
    · exact Or.inl h
    · exact Or.inr ⟨p, h.symm⟩

theorem coveredBy_suffix {t s : GoString} (h : coveredBy t s) : s <:+ t := by
  rcases (coveredBy_iff t s).1 h with rfl | ⟨p, rfl⟩
  · exact List.suffix_refl _
  · exact ⟨p ++ ['.'], by simp⟩

theorem TrimSuffix_append (d p : GoString) : TrimSuffix (d ++ p) p = d := by
  have h : HasSuffix (d ++ p) p = true := (HasSuffix_iff _ _).2 ⟨d, rfl⟩
  simp [TrimSuffix, h]

theorem TrimPrefix_append (p s : GoString) : TrimPrefix (p ++ s) p = s := by
  have h : HasPrefix (p ++ s) p = true := (HasPrefix_iff _ _).2 ⟨s, rfl⟩
  simp [TrimPrefix, h]

theorem TrimPrefix_eq (k p : GoString) (h : HasPrefix k p = true) :
    k = p ++ TrimPrefix k p := by
  obtain ⟨q, rfl⟩ := (HasPrefix_iff _ _).1 h
  rw [TrimPrefix_append]

theorem cutFirst_some (sep : Char) :
    ∀ (s a b : GoString), cutFirst sep s = some (a, b) → s = a ++ sep :: b ∧ sep ∉ a
  | [], _, _, h => by simp [cutFirst] at h
  | c :: cs, a, b, h => by
    unfold cutFirst at h
    split at h
    · next hc =>
      simp only [Option.some.injEq, Prod.mk.injEq] at h
      obtain ⟨rfl, rfl⟩ := h
      simp [hc]
    · next hc =>
      cases hcs : cutFirst sep cs with
      | none => simp [hcs] at h
      | some ab =>
        obtain ⟨a', b'⟩ := ab
        simp only [hcs, Option.some.injEq, Prod.mk.injEq] at h
        obtain ⟨rfl, rfl⟩ := h
        obtain ⟨h1, h2⟩ := cutFirst_some sep cs a' b' hcs
        refine ⟨by rw [h1]; rfl, ?_⟩
        simp only [List.mem_cons, not_or]
        exact ⟨fun h => hc h.symm, h2⟩

theorem cutFirst_none (sep : Char) :
    ∀ (s : GoString), cutFirst sep s = none → sep ∉ s
  | [], _ => by simp
  | c :: cs, h => by
    unfold cutFirst at h
    split at h
    · simp at h
    · next hc =>
      cases hcs : cutFirst sep cs with
      | none =>
        simp only [List.mem_cons, not_or]
        exact ⟨fun h => hc h.symm, cutFirst_none sep cs hcs⟩
      | some ab => simp [hcs] at h

theorem SplitN2_two (sep : Char) (x head next : GoString) (tail : List GoString)
    (h : SplitN2 x sep = head :: next :: tail) : x = head ++ sep :: next ∧ sep ∉ head := by
  unfold SplitN2 at h
  cases hc : cutFirst sep x with
  | none => simp [hc] at h
  | some ab =>
    obtain ⟨a, b⟩ := ab
    simp only [hc, List.cons.injEq] at h
    obtain ⟨rfl, rfl, _⟩ := h
    exact cutFirst_some sep x a b hc

theorem SplitN2_one (sep : Char) (x : GoString)
    (h : ∀ (head next : GoString) (tail : List GoString),
      SplitN2 x sep = head :: next :: tail → False) : sep ∉ x := by
  cases hc : cutFirst sep x with
  | none => exact cutFirst_none sep x hc
  | some ab =>
    obtain ⟨a, b⟩ := ab
    exact (h a b [] (by simp [SplitN2, hc])).elim

/-! ## Facts about the suffix loop -/

theorem subDomainLoop_hit (m : GoMap GoString) (x ip : GoString) (h : m x = some ip) :
    subDomainLoop m x = (some ip, [x]) := by
  rw [subDomainLoop]; simp [h]

theorem subDomainLoop_next (m : GoMap GoString) (x head next : GoString)
    (tail : List GoString) (h : m x = none) (hs : SplitN2 x '.' = head :: next :: tail) :
    subDomainLoop m x = ((subDomainLoop m next).1, x :: (subDomainLoop m next).2) := by
  rw [subDomainLoop]
  simp only [h]
  split
  · next h1 n1 t1 heq =>
    rw [hs] at heq
    simp only [List.cons.injEq] at heq
    obtain ⟨_, rfl, _⟩ := heq
    rfl
  · next hne => exact (hne head next tail hs).elim

theorem subDomainLoop_stop (m : GoMap GoString) (x : GoString) (h : m x = none)
    (hs : ∀ (head next : GoString) (tail : List GoString),
      SplitN2 x '.' = head :: next :: tail → False) :
    subDomainLoop m x = (none, [x]) := by
  rw [subDomainLoop]
  simp only [h]

theorem subDomainLoop_last (m : GoMap GoString) (x : GoString) (h : m x = none)
    (hs : SplitN2 x '.' = [x]) : subDomainLoop m x = (none, [x]) := by
  apply subDomainLoop_stop m x h
  intro a b c hc
  rw [hs] at hc
  simp at hc

theorem SplitN2_nodot (x : GoString) (hd : '.' ∉ x) : SplitN2 x '.' = [x] := by
  unfold SplitN2
  cases hc : cutFirst '.' x with
  | none => rfl
  | some ab =>
    obtain ⟨h1, _⟩ := cutFirst_some '.' x ab.1 ab.2 hc
    exact (hd (by rw [h1]; simp)).elim

theorem subDomainLoop_nodot (m : GoMap GoString) (x : GoString) (hd : '.' ∉ x) :
    (subDomainLoop m x).2 = [x] := by
  cases hm : m x with
  | none => rw [subDomainLoop_last m x hm (SplitN2_nodot x hd)]
  | some ip => rw [subDomainLoop_hit m x ip hm]

theorem coveredBy_step (x head next s : GoString) (hx : x = head ++ '.' :: next)
    (hh : '.' ∉ head) : coveredBy x s ↔ x = s ∨ coveredBy next s := by
  rw [coveredBy_iff, coveredBy_iff]
  constructor
  · rintro (h | ⟨p, h⟩)
    · exact Or.inl h
    · right
      rw [hx, List.append_eq_append_iff] at h
      rcases h with ⟨a, rfl, ha⟩ | ⟨c, hc, hc2⟩
      · cases a with
        | nil =>
          simp only [List.nil_append, List.cons.injEq, true_and] at ha
          exact Or.inl ha
        | cons y ys =>
          simp only [List.cons_append, List.cons.injEq] at ha
          exact Or.inr ⟨ys, ha.2⟩
      · cases c with
        | nil =>
          simp only [List.nil_append, List.cons.injEq, true_and] at hc2
          exact Or.inl hc2.symm
        | cons y ys =>
          simp only [List.cons_append, List.cons.injEq] at hc2
          exact (hh (by rw [hc, ← hc2.1]; simp)).elim
  · rintro (h | h | ⟨p, h⟩)
    · exact Or.inl h
    · exact Or.inr ⟨head, by rw [hx, h]⟩
    · exact Or.inr ⟨head ++ '.' :: p, by rw [hx, h]; simp⟩

theorem coveredBy_nodot (x s : GoString) (hx : '.' ∉ x) : coveredBy x s ↔ x = s := by
  rw [coveredBy_iff]
  constructor
  · rintro (h | ⟨p, h⟩)
    · exact h
    · exact (hx (by rw [h]; simp)).elim
  · exact Or.inl

theorem count_dot_step (x head next : GoString) (hx : x = head ++ '.' :: next)
    (hh : '.' ∉ head) : x.count '.' = next.count '.' + 1 := by
  rw [hx, List.count_append, List.count_cons_self, List.count_eq_zero.2 hh]
  omega

theorem subDomainLoop_none_iff (m : GoMap GoString) (x : GoString) :
    (subDomainLoop m x).1 = none ↔ ∀ s, coveredBy x s → m s = none := by
  induction x using subDomainLoop.induct m with
  | case1 x ip h =>
    rw [subDomainLoop_hit m x ip h]
    simp only [reduceCtorEq, false_iff, not_forall]
    exact ⟨x, Or.inl rfl, by simp [h]⟩
  | case2 x h head next tail hs ih =>
    obtain ⟨hx, hh⟩ := SplitN2_two '.' x head next tail hs
    rw [subDomainLoop_next m x head next tail h hs]
    simp only
    rw [ih]
    constructor
    · intro hn s hc
      rcases (coveredBy_step x head next s hx hh).1 hc with rfl | hc
      · exact h
      · exact hn s hc
    · intro hn s hc
      exact hn s ((coveredBy_step x head next s hx hh).2 (Or.inr hc))
  | case3 x h hs =>
    have hd := SplitN2_one '.' x hs
    rw [subDomainLoop_stop m x h hs]
    simp only [true_iff]
    intro s hc
    rw [coveredBy_nodot x s hd] at hc
    rw [← hc]; exact h

theorem subDomainLoop_some (m : GoMap GoString) (x ip : GoString)
    (hr : (subDomainLoop m x).1 = some ip) :
    ∃ s, coveredBy x s ∧ m s = some ip ∧
      (∀ s', coveredBy x s' → s.length < s'.length → m s' = none) ∧
      (subDomainLoop m x).2.getLast? = some s := by
  induction x using subDomainLoop.induct m with
  | case1 x ip' h =>
    rw [subDomainLoop_hit m x ip' h] at hr ⊢
    simp only [Option.some.injEq] at hr
    subst hr
    refine ⟨x, Or.inl rfl, h, ?_, rfl⟩
    intro s' hc hl
    have := (coveredBy_suffix hc).length_le
    omega
  | case2 x h head next tail hs ih =>
    obtain ⟨hx, hh⟩ := SplitN2_two '.' x head next tail hs
    rw [subDomainLoop_next m x head next tail h hs] at hr ⊢
    obtain ⟨s, hc, hm, hl, hlast⟩ := ih hr
    refine ⟨s, (coveredBy_step x head next s hx hh).2 (Or.inr hc), hm, ?_, ?_⟩
    · intro s' hc' hlen
      rcases (coveredBy_step x head next s' hx hh).1 hc' with rfl | hc'
      · exact h
      · exact hl s' hc' hlen
    · cases hl2 : (subDomainLoop m next).2 with
      | nil => rw [hl2] at hlast; simp at hlast
      | cons y ys =>
        rw [hl2] at hlast
        simp only [List.getLast?_cons_cons]
        exact hlast
  | case3 x h hs =>
    rw [subDomainLoop_stop m x h hs] at hr
    simp at hr

theorem subDomainLoop_longest (m : GoMap GoString) (x s ip : GoString)
    (hc : coveredBy x s) (hm : m s = some ip)
    (hl : ∀ s', coveredBy x s' → m s' ≠ none → s'.length ≤ s.length) :
    (subDomainLoop m x).1 = some ip ∧ (subDomainLoop m x).2.getLast? = some s := by
  cases hr : (subDomainLoop m x).1 with
  | none =>
    have := (subDomainLoop_none_iff m x).1 hr s hc
    rw [hm] at this
    cases this
  | some ip' =>
    obtain ⟨s0, hc0, hm0, hl0, hlast⟩ := subDomainLoop_some m x ip' hr
    have h1 : s0.length ≤ s.length := hl s0 hc0 (by simp [hm0])
    have h2 : ¬ s0.length < s.length := by
      intro hlt
      have := hl0 s hc hlt
      rw [hm] at this
      cases this
    have h3 : s0 = s :=
      (List.suffix_of_suffix_length_le (coveredBy_suffix hc0) (coveredBy_suffix hc)
        h1).eq_of_length (by omega)
    subst h3
    rw [hm] at hm0
    exact ⟨hm0.symm ▸ rfl, hlast⟩

theorem subDomainLoop_trace (m : GoMap GoString) (x : GoString) :
    (∃ rest, (subDomainLoop m x).2 = x :: rest) ∧
    List.Chain' nextCandidate (subDomainLoop m x).2 ∧
    (subDomainLoop m x).2.length ≤ x.count '.' + 1 ∧
    (∀ c ∈ (subDomainLoop m x).2.dropLast, m c = none) ∧
    ((subDomainLoop m x).1 = none →
      (subDomainLoop m x).2.length = x.count '.' + 1 ∧
      ∀ c ∈ (subDomainLoop m x).2.getLast?, '.' ∉ c) := by
  induction x using subDomainLoop.induct m with
  | case1 x ip h =>
    rw [subDomainLoop_hit m x ip h]
    simp
  | case2 x h head next tail hs ih =>
    obtain ⟨hx, hh⟩ := SplitN2_two '.' x head next tail hs
    obtain ⟨⟨rest, hrest⟩, hchain, hlen, hdrop, hnone⟩ := ih
    rw [subDomainLoop_next m x head next tail h hs]
    simp only [List.length_cons]
    rw [count_dot_step x head next hx hh]
    refine ⟨⟨_, rfl⟩, ?_, by omega, ?_, ?_⟩
    · rw [hrest] at hchain ⊢
      exact List.Chain'.cons ⟨head, hh, hx⟩ hchain
    · rw [hrest] at hdrop ⊢
      intro c hcm
      rw [List.dropLast_cons₂, List.mem_cons] at hcm
      rcases hcm with rfl | hcm
      · exact h
      · exact hdrop c hcm
    · intro hr
      obtain ⟨h1, h2⟩ := hnone hr
      refine ⟨by omega, ?_⟩
      rw [hrest] at h2 ⊢
      simpa [List.getLast?_cons_cons] using h2
  | case3 x h hs =>
    have hd := SplitN2_one '.' x hs
    rw [subDomainLoop_stop m x h hs]
    simp [List.count_eq_zero.2 hd, hd]

/-! ## Facts about `splitRules` -/

theorem splitRules_cons (g : Globals) (r : GoString × GoString)
    (rs : List (GoString × GoString)) :
    splitRules g (r :: rs) = splitRules (splitRulesStep g r) rs := rfl

theorem splitRules_ipCache (rules : List (GoString × GoString)) :
    ∀ g : Globals, (splitRules g rules).ipCache = g.ipCache := by
  induction rules with
  | nil => intro g; rfl
  | cons r rs ih =>
    intro g
    rw [splitRules_cons, ih]
    unfold splitRulesStep
    split <;> rfl

theorem splitRules_exact_keep (k : GoString) (rules : List (GoString × GoString)) :
    ∀ g : Globals, (∀ r ∈ rules, r.1 = k → HasPrefix k ['*', '.'] = true) →
      (splitRules g rules).matchDomainMap k = g.matchDomainMap k := by
  induction rules with
  | nil => intro g _; rfl
  | cons r rs ih =>
    intro g h
    rw [splitRules_cons, ih _ (fun r' hr' => h r' (List.mem_cons_of_mem _ hr'))]
    unfold splitRulesStep
    split
    · rfl
    · next hp =>
      have hne : k ≠ r.1 := by
        intro hk
        have := h r (List.mem_cons_self _ _) hk.symm
        rw [hk] at this
        exact hp this
      simp [GoMap.store, hne]

theorem splitRules_sub_keep (s : GoString) (rules : List (GoString × GoString)) :
    ∀ g : Globals, (∀ r ∈ rules, r.1 ≠ ['*', '.'] ++ s) →
      (splitRules g rules).matchDomainAndSubDomainMap s = g.matchDomainAndSubDomainMap s := by
  induction rules with
  | nil => intro g _; rfl
  | cons r rs ih =>
    intro g h
    rw [splitRules_cons, ih _ (fun r' hr' => h r' (List.mem_cons_of_mem _ hr'))]
    unfold splitRulesStep
    split
    · next hp =>
      have hne : s ≠ TrimPrefix r.1 ['*', '.'] := by
        intro hs
        apply h r (List.mem_cons_self _ _)
        rw [hs]
        exact TrimPrefix_eq _ _ hp
      simp [GoMap.store, hne]
    · rfl

theorem splitRules_exact_mem (k ip : GoString) (rules : List (GoString × GoString)) :
    ∀ g : Globals, (rules.map Prod.fst).Nodup → (k, ip) ∈ rules →
      HasPrefix k ['*', '.'] = false → (splitRules g rules).matchDomainMap k = some ip := by
  induction rules with
  | nil => intro g _ hm; cases hm
  | cons r rs ih =>
    intro g hnd hm hp
    rw [List.map_cons, List.nodup_cons] at hnd
    rw [splitRules_cons]
    rcases List.mem_cons.1 hm with rfl | hm
    · rw [splitRules_exact_keep]
      · simp [splitRulesStep, hp, GoMap.store]
      · intro r' hr' hk
        exact (hnd.1 (List.mem_map.2 ⟨r', hr', hk⟩)).elim
    · exact ih _ hnd.2 hm hp

theorem splitRules_sub_mem (s ip : GoString) (rules : List (GoString × GoString)) :
    ∀ g : Globals, (rules.map Prod.fst).Nodup → (['*', '.'] ++ s, ip) ∈ rules →
      (splitRules g rules).matchDomainAndSubDomainMap s = some ip := by
  induction rules with
  | nil => intro g _ hm; cases hm
  | cons r rs ih =>
    intro g hnd hm
    rw [List.map_cons, List.nodup_cons] at hnd
    rw [splitRules_cons]
    rcases List.mem_cons.1 hm with rfl | hm
    · rw [splitRules_sub_keep]
      · have hp : HasPrefix (['*', '.'] ++ s) ['*', '.'] = true :=
          (HasPrefix_iff _ _).2 ⟨s, rfl⟩
        have ht := TrimPrefix_append ['*', '.'] s
        simp only [splitRulesStep, hp, if_true, ht, GoMap.store]
      · intro r' hr' hk
        exact (hnd.1 (List.mem_map.2 ⟨r', hr', hk⟩)).elim
    · exact ih _ hnd.2 hm

theorem splitRules_exact_inv (k ip : GoString) (rules : List (GoString × GoString)) :
    ∀ g : Globals, (splitRules g rules).matchDomainMap k = some ip →
      g.matchDomainMap k = some ip ∨ ((k, ip) ∈ rules ∧ HasPrefix k ['*', '.'] = false) := by
  induction rules with
  | nil => intro g h; exact Or.inl h
  | cons r rs ih =>
    intro g h
    rw [splitRules_cons] at h
    rcases ih _ h with h' | ⟨h1, h2⟩
    · unfold splitRulesStep at h'
      split at h'
      · exact Or.inl h'
      · next hp =>
        simp only [GoMap.store] at h'
        split at h'
        · next hk =>
          simp only [Option.some.injEq] at h'
          right
          refine ⟨?_, by rw [hk]; simpa using hp⟩
          rw [hk, ← h']
          exact List.mem_cons_self _ _
        · exact Or.inl h'
    · exact Or.inr ⟨List.mem_cons_of_mem _ h1, h2⟩

theorem splitRules_sub_inv (s ip : GoString) (rules : List (GoString × GoString)) :
    ∀ g : Globals, (splitRules g rules).matchDomainAndSubDomainMap s = some ip →
      g.matchDomainAndSubDomainMap s = some ip ∨ (['*', '.'] ++ s, ip) ∈ rules := by
  induction rules with
  | nil => intro g h; exact Or.inl h
  | cons r rs ih =>
    intro g h
    rw [splitRules_cons] at h
    rcases ih _ h with h' | h1
    · unfold splitRulesStep at h'
      split at h'
      · next hp =>
        simp only [GoMap.store] at h'
        split at h'
        · next hk =>
          simp only [Option.some.injEq] at h'
          right
          have := TrimPrefix_eq _ _ hp
          rw [← hk] at this
          rw [← this, ← h']
          exact List.mem_cons_self _ _
        · exact Or.inl h'
      · exact Or.inl h'
    · exact Or.inr (List.mem_cons_of_mem _ h1)

/-! ## Facts about `resolveDomain` -/

theorem resolveDomain_of_exact (g : Globals) (net : Network) (nowLoad nowStore : Time)
    (dohURL d ip : GoString) (h : g.matchDomainMap (TrimSuffix d ['.']) = some ip) :
    resolveDomain g net nowLoad nowStore dohURL d =
      ⟨ip, "domain rule".toList, g.ipCache, []⟩ := by
  simp only [resolveDomain, h]

theorem resolveDomain_of_loop (g : Globals) (net : Network) (nowLoad nowStore : Time)
    (dohURL d ip : GoString) (h : g.matchDomainMap (TrimSuffix d ['.']) = none)
    (hl : (subDomainLoop g.matchDomainAndSubDomainMap (TrimSuffix d ['.'])).1 = some ip) :
    resolveDomain g net nowLoad nowStore dohURL d =
      ⟨ip, "subdomain rule".toList, g.ipCache, []⟩ := by
  simp only [resolveDomain, h, hl]

theorem resolveDomain_of_norule (g : Globals) (net : Network) (nowLoad nowStore : Time)
    (dohURL d : GoString) (h : g.matchDomainMap (TrimSuffix d ['.']) = none)
    (hl : ∀ s, coveredBy (TrimSuffix d ['.']) s → g.matchDomainAndSubDomainMap s = none) :
    resolveDomain g net nowLoad nowStore dohURL d =
      match g.ipCache (TrimSuffix d ['.']) with
      | some ipEntry =>
        if nowLoad < ipEntry.ExpireAt then ⟨ipEntry.IP, "cache".toList, g.ipCache, []⟩
        else resolveDomainFallback g net nowStore dohURL (TrimSuffix d ['.'])
          (TrimSuffix d ['.'])
      | none =>
        resolveDomainFallback g net nowStore dohURL (TrimSuffix d ['.']) (TrimSuffix d ['.']) := by
  have hl' := (subDomainLoop_none_iff _ _).2 hl
  simp only [resolveDomain, h, hl']

theorem resolveDomain_keeps_entry (g : Globals) (net : Network) (nowLoad nowStore : Time)
    (dohURL d t : GoString) (e : IPCacheEntry) (h : g.ipCache t = some e)
    (hnl : nowLoad < e.ExpireAt) :
    (resolveDomain g net nowLoad nowStore dohURL d).ipCache t = some e := by
  have hfb : g.ipCache (TrimSuffix d ['.']) = none ∨
      (∃ e', g.ipCache (TrimSuffix d ['.']) = some e' ∧ ¬ nowLoad < e'.ExpireAt) →
      (resolveDomainFallback g net nowStore dohURL (TrimSuffix d ['.'])
        (TrimSuffix d ['.'])).ipCache t = some e := by
    intro hmiss
    have hne : t ≠ TrimSuffix d ['.'] := by
      intro heq
      rw [← heq, h] at hmiss
      rcases hmiss with h0 | ⟨e', h1, h2⟩
      · cases h0
      · simp only [Option.some.injEq] at h1
        subst h1
        exact h2 hnl
    unfold resolveDomainFallback
    simp only
    split
    · simp only [GoMap.store, if_neg hne]
      exact h
    · exact h
  unfold resolveDomain
  simp only
  split
  · exact h
  · split
    · exact h
    · split
      · next ipEntry hentry =>
        split
        · exact h
        · next hexp => exact hfb (Or.inr ⟨ipEntry, hentry, hexp⟩)
      · next hentry => exact hfb (Or.inl hentry)

theorem resolveDomainSeq_rules (calls : List Call) :
    ∀ g : Globals,
      (resolveDomainSeq g calls).matchDomainMap = g.matchDomainMap ∧
      (resolveDomainSeq g calls).matchDomainAndSubDomainMap = g.matchDomainAndSubDomainMap := by
  induction calls with
  | nil => intro g; exact ⟨rfl, rfl⟩
  | cons c cs ih =>
    intro g
    simp only [resolveDomainSeq, List.foldl_cons]
    exact ih _

theorem resolveDomainSeq_keeps_entry (t : GoString) (e : IPCacheEntry) (calls : List Call) :
    ∀ g : Globals, g.ipCache t = some e → (∀ c ∈ calls, c.nowLoad < e.ExpireAt) →
      (resolveDomainSeq g calls).ipCache t = some e := by
  induction calls with
  | nil => intro g h _; exact h
  | cons c cs ih =>
    intro g h hc
    simp only [resolveDomainSeq, List.foldl_cons]
    apply ih
    · exact resolveDomain_keeps_entry g c.net c.nowLoad c.nowStore c.dohURL c.domain t e h
        (hc c (List.mem_cons_self _ _))
    · exact fun c' hc' => hc c' (List.mem_cons_of_mem _ hc')

theorem resolveDomain_eq_lookup (g : Globals) (net : Network) (nowLoad nowStore : Time)
    (dohURL d : GoString) :
    resolveDomain g net nowLoad nowStore dohURL d =
      match resolveDomainLookup g nowLoad d with
      | some r => r
      | none =>
        resolveDomainFallback g net nowStore dohURL (TrimSuffix d ['.']) (TrimSuffix d ['.']) := by
  unfold resolveDomain resolveDomainLookup
  simp only
  split
  · rfl
  · split
    · rfl
    · split
      · split <;> rfl
      · rfl

theorem resolveDomainLookup_of_norule (g : Globals) (nowLoad : Time) (d : GoString)
    (h : g.matchDomainMap (TrimSuffix d ['.']) = none)
    (hl : ∀ s, coveredBy (TrimSuffix d ['.']) s → g.matchDomainAndSubDomainMap s = none) :
    resolveDomainLookup g nowLoad d =
      match g.ipCache (TrimSuffix d ['.']) with
      | some ipEntry =>
        if nowLoad < ipEntry.ExpireAt then some ⟨ipEntry.IP, "cache".toList, g.ipCache, []⟩
        else none
      | none => none := by
  have hl' := (subDomainLoop_none_iff _ _).2 hl
  simp only [resolveDomainLookup, h, hl']

/-! ## The claims -/

/-- C1 (as amended).  Let `rules` be any rule mapping (its entries in any iteration
order) and `k ↦ ip` one of its entries whose key does not begin with `*.`.  For every
domain `d` that equals `k` once one trailing `.` has been removed from `d`, and for
every cache, clock and network, `resolveDomain` returns `ip` with the tag
`domain rule`, leaves the cache as it was and does not call the DoH client. -/
theorem resolveDomain_exact_rule (rules : List (GoString × GoString))
    (hnd : (rules.map Prod.fst).Nodup) (k ip : GoString) (hmem : (k, ip) ∈ rules)
    (hk : HasPrefix k ['*', '.'] = false) (cache : GoMap IPCacheEntry) (net : Network)
    (nowLoad nowStore : Time) (dohURL d : GoString) (hd : TrimSuffix d ['.'] = k) :
    resolveDomain { splitRules Globals.init rules with ipCache := cache }
      net nowLoad nowStore dohURL d = ⟨ip, "domain rule".toList, cache, []⟩ := by
  apply resolveDomain_of_exact
  rw [hd]
  exact splitRules_exact_mem k ip rules Globals.init hnd hmem hk

/-- Witness for C1: the rule `example.com ↦ 10.0.0.5` resolves the query name
`example.com.` even though the cache holds another address for it. -/
theorem resolveDomain_exact_rule_witness :
    ([("example.com".toList, "10.0.0.5".toList)].map Prod.fst).Nodup ∧
    ("example.com".toList, "10.0.0.5".toList) ∈ [("example.com".toList, "10.0.0.5".toList)] ∧
    HasPrefix "example.com".toList ['*', '.'] = false ∧
    TrimSuffix "example.com.".toList ['.'] = "example.com".toList ∧
    resolveDomain
      { splitRules Globals.init [("example.com".toList, "10.0.0.5".toList)] with
        ipCache := GoMap.empty.store "example.com".toList ⟨"9.9.9.9".toList, 100⟩ }
      (fun _ _ => HttpExchange.doError) 5 6 "https://doh/".toList "example.com.".toList =
      ⟨"10.0.0.5".toList, "domain rule".toList,
        GoMap.empty.store "example.com".toList ⟨"9.9.9.9".toList, 100⟩, []⟩ :=
  ⟨by decide, by decide, by decide, by decide,
    resolveDomain_exact_rule [("example.com".toList, "10.0.0.5".toList)] (by decide)
      "example.com".toList "10.0.0.5".toList (by decide) (by decide) _ _ 5 6 _
      "example.com.".toList (by decide)⟩

/-- Counterexample to C1 as stated: with the single rule `example.com. ↦ 10.0.0.5`
the name `example.com.` is a key of the exact rule map, yet resolving it does not
return the rule: the lookup uses `example.com`, finds no rule, and (the DoH request
failing) the result is the empty IP with the empty tag. -/
theorem resolveDomain_exact_rule_trailing_dot :
    (splitRules Globals.init [("example.com.".toList, "10.0.0.5".toList)]).matchDomainMap
      "example.com.".toList = some "10.0.0.5".toList ∧
    HasPrefix "example.com.".toList ['*', '.'] = false ∧
    (resolveDomain (splitRules Globals.init [("example.com.".toList, "10.0.0.5".toList)])
      (fun _ _ => HttpExchange.doError) 0 0 "https://doh/".toList
      "example.com.".toList).ip = [] ∧
    (resolveDomain (splitRules Globals.init [("example.com.".toList, "10.0.0.5".toList)])
      (fun _ _ => HttpExchange.doError) 0 0 "https://doh/".toList
      "example.com.".toList).source = [] := by
  have h := resolveDomain_of_norule
    (splitRules Globals.init [("example.com.".toList, "10.0.0.5".toList)])
    (fun _ _ => HttpExchange.doError) 0 0 "https://doh/".toList "example.com.".toList
    (by decide)
    (by
      intro s hs
      apply splitRules_sub_keep
      intro r hr hs'
      rw [List.mem_singleton.1 hr] at hs'
      exact absurd (List.head_eq_of_cons_eq hs') (by decide))
  refine ⟨by decide, by decide, ?_, ?_⟩
  · rw [h]; rfl
  · rw [h]; rfl

/-- C2 (as amended).  Let `"*." ++ s ↦ ip` be a wildcard rule and `d` a domain which,
once one trailing `.` has been removed, is `s` or ends in `"." ++ s`, has no exact
rule, and is covered by no wildcard rule with a longer suffix than `s`.  Then
`resolveDomain d` returns `ip` with the tag `subdomain rule`, whatever the cache,
the clock and the network; the cache is unchanged and the DoH client is not called. -/
theorem resolveDomain_wildcard_rule (rules : List (GoString × GoString))
    (hnd : (rules.map Prod.fst).Nodup) (s ip : GoString)
    (hmem : (['*', '.'] ++ s, ip) ∈ rules) (cache : GoMap IPCacheEntry) (net : Network)
    (nowLoad nowStore : Time) (dohURL d : GoString)
    (hcov : coveredBy (TrimSuffix d ['.']) s)
    (hexact : ∀ r ∈ rules, r.1 = TrimSuffix d ['.'] →
      HasPrefix (TrimSuffix d ['.']) ['*', '.'] = true)
    (hlong : ∀ r ∈ rules, HasPrefix r.1 ['*', '.'] = true →
      coveredBy (TrimSuffix d ['.']) (TrimPrefix r.1 ['*', '.']) →
      (TrimPrefix r.1 ['*', '.']).length ≤ s.length) :
    resolveDomain { splitRules Globals.init rules with ipCache := cache }
      net nowLoad nowStore dohURL d = ⟨ip, "subdomain rule".toList, cache, []⟩ := by
  apply resolveDomain_of_loop
  · exact splitRules_exact_keep _ rules Globals.init hexact
  · refine (subDomainLoop_longest _ _ s ip hcov ?_ ?_).1
    · exact splitRules_sub_mem s ip rules Globals.init hnd hmem
    · intro s' hc hne
      cases hs' : (splitRules Globals.init rules).matchDomainAndSubDomainMap s' with
      | none => exact (hne hs').elim
      | some ip' =>
        rcases splitRules_sub_inv s' ip' rules Globals.init hs' with h0 | hr
        · cases h0
        · have hp : HasPrefix (['*', '.'] ++ s') ['*', '.'] = true :=
            (HasPrefix_iff _ _).2 ⟨s', rfl⟩
          have := hlong _ hr hp
          rw [TrimPrefix_append] at this
          exact this hc

/-- Witness for C2: with the rule `*.example.com ↦ 10.0.0.5`, both
`foo.example.com` and `example.com` resolve to `10.0.0.5`. -/
theorem resolveDomain_wildcard_rule_witness :
    resolveDomain
      { splitRules Globals.init [("*.example.com".toList, "10.0.0.5".toList)] with
        ipCache := GoMap.empty }
      (fun _ _ => HttpExchange.doError) 0 0 "https://doh/".toList "foo.example.com".toList =
      ⟨"10.0.0.5".toList, "subdomain rule".toList, GoMap.empty, []⟩ ∧
    resolveDomain
      { splitRules Globals.init [("*.example.com".toList, "10.0.0.5".toList)] with
        ipCache := GoMap.empty }
      (fun _ _ => HttpExchange.doError) 0 0 "https://doh/".toList "example.com".toList =
      ⟨"10.0.0.5".toList, "subdomain rule".toList, GoMap.empty, []⟩ :=
  ⟨resolveDomain_wildcard_rule [("*.example.com".toList, "10.0.0.5".toList)] (by decide)
      "example.com".toList "10.0.0.5".toList (by decide) _ _ 0 0 _ "foo.example.com".toList
      (by decide) (by decide) (by decide),
   resolveDomain_wildcard_rule [("*.example.com".toList, "10.0.0.5".toList)] (by decide)
      "example.com".toList "10.0.0.5".toList (by decide) _ _ 0 0 _ "example.com".toList
      (by decide) (by decide) (by decide)⟩

/-- Counterexample to C2 as stated, at two inputs.
(1) Rules `*.a.example.com ↦ 10.0.0.1` and `*.example.com ↦ 10.0.0.2`: the domain
`b.a.example.com` ends in `.example.com` and has no exact rule, but it resolves to
`10.0.0.1`, the IP of the longer suffix, not to `10.0.0.2`.
(2) Rule `*.example.com. ↦ 10.0.0.5`: the domain `example.com.` equals the suffix of
the rule, but the lookup is made with `example.com` and finds nothing. -/
theorem resolveDomain_wildcard_rule_shadowed :
    (("*.example.com".toList, "10.0.0.2".toList) ∈
        [("*.a.example.com".toList, "10.0.0.1".toList),
         ("*.example.com".toList, "10.0.0.2".toList)] ∧
      HasSuffix "b.a.example.com".toList ('.' :: "example.com".toList) = true ∧
      (splitRules Globals.init
          [("*.a.example.com".toList, "10.0.0.1".toList),
           ("*.example.com".toList, "10.0.0.2".toList)]).matchDomainMap
        "b.a.example.com".toList = none ∧
      "10.0.0.1".toList ≠ "10.0.0.2".toList ∧
      (resolveDomain
        (splitRules Globals.init
          [("*.a.example.com".toList, "10.0.0.1".toList),
           ("*.example.com".toList, "10.0.0.2".toList)])
        (fun _ _ => HttpExchange.doError) 0 0 "https://doh/".toList
        "b.a.example.com".toList).ip = "10.0.0.1".toList) ∧
    (("*.example.com.".toList, "10.0.0.5".toList) ∈
        [("*.example.com.".toList, "10.0.0.5".toList)] ∧
      (resolveDomain
        (splitRules Globals.init [("*.example.com.".toList, "10.0.0.5".toList)])
        (fun _ _ => HttpExchange.doError) 0 0 "https://doh/".toList
        "example.com.".toList).ip = []) := by
  refine ⟨⟨by decide, by decide, by decide, by decide, ?_⟩, by decide, ?_⟩
  · rw [resolveDomain_of_loop _ _ _ _ _ _ "10.0.0.1".toList (by decide)]
    rw [subDomainLoop_next _ _ "b".toList "a.example.com".toList [] (by decide) (by decide),
      subDomainLoop_hit _ _ "10.0.0.1".toList (by decide)]
  · have h1 : TrimSuffix "example.com.".toList ['.'] = "example.com".toList := by decide
    rw [resolveDomain, h1]
    have h2 : subDomainLoop
        (splitRules Globals.init
          [("*.example.com.".toList, "10.0.0.5".toList)]).matchDomainAndSubDomainMap
        "example.com".toList = (none, ["example.com".toList, "com".toList]) := by
      rw [subDomainLoop_next _ _ "example".toList "com".toList [] (by decide) (by decide),
        subDomainLoop_last _ _ (by decide) (by decide)]
    simp only [h2]
    rfl

/-- C3 (as amended).  After `splitRules rules`, started from empty maps, every entry
`k ↦ ip` of `rules` is found again by the rule lookup of `resolveDomain`, with its kind:
for a key `k` that does not begin with `*.` and does not end in `.`, looking up `k`
gives `ip` with the tag `domain rule`; for a key `k = "*." ++ s` where `s` does not end
in `.` and is not the key of an exact rule, looking up `s` gives `ip` with the tag
`subdomain rule`. -/
theorem splitRules_lookup_roundtrip (rules : List (GoString × GoString))
    (hnd : (rules.map Prod.fst).Nodup) (k ip : GoString) (hmem : (k, ip) ∈ rules)
    (cache : GoMap IPCacheEntry) (net : Network) (nowLoad nowStore : Time)
    (dohURL : GoString) :
    (HasPrefix k ['*', '.'] = false → TrimSuffix k ['.'] = k →
      resolveDomain { splitRules Globals.init rules with ipCache := cache }
        net nowLoad nowStore dohURL k = ⟨ip, "domain rule".toList, cache, []⟩) ∧
    (∀ s, k = ['*', '.'] ++ s → TrimSuffix s ['.'] = s →
      (∀ r ∈ rules, r.1 = s → HasPrefix s ['*', '.'] = true) →
      resolveDomain { splitRules Globals.init rules with ipCache := cache }
        net nowLoad nowStore dohURL s = ⟨ip, "subdomain rule".toList, cache, []⟩) := by
  constructor
  · intro hk ht
    apply resolveDomain_of_exact
    rw [ht]
    exact splitRules_exact_mem k ip rules Globals.init hnd hmem hk
  · intro s hks ht hex
    subst hks
    apply resolveDomain_of_loop
    · rw [ht]
      exact splitRules_exact_keep s rules Globals.init hex
    · rw [ht]
      have hm := splitRules_sub_mem s ip rules Globals.init hnd hmem
      show (subDomainLoop (splitRules Globals.init rules).matchDomainAndSubDomainMap s).1 =
        some ip
      rw [subDomainLoop_hit _ s ip hm]

/-- Witness for C3: the rules `example.com ↦ 10.0.0.1` and `*.example.org ↦ 10.0.0.2`
are both found again, each with its kind. -/
theorem splitRules_lookup_roundtrip_witness :
    resolveDomain
      { splitRules Globals.init
          [("example.com".toList, "10.0.0.1".toList),
           ("*.example.org".toList, "10.0.0.2".toList)] with ipCache := GoMap.empty }
      (fun _ _ => HttpExchange.doError) 0 0 "https://doh/".toList "example.com".toList =
      ⟨"10.0.0.1".toList, "domain rule".toList, GoMap.empty, []⟩ ∧
    resolveDomain
      { splitRules Globals.init
          [("example.com".toList, "10.0.0.1".toList),
           ("*.example.org".toList, "10.0.0.2".toList)] with ipCache := GoMap.empty }
      (fun _ _ => HttpExchange.doError) 0 0 "https://doh/".toList "example.org".toList =
      ⟨"10.0.0.2".toList, "subdomain rule".toList, GoMap.empty, []⟩ :=
  ⟨(splitRules_lookup_roundtrip
      [("example.com".toList, "10.0.0.1".toList), ("*.example.org".toList, "10.0.0.2".toList)]
      (by decide) "example.com".toList "10.0.0.1".toList (by decide) _ _ 0 0 _).1
      (by decide) (by decide),
   (splitRules_lookup_roundtrip
      [("example.com".toList, "10.0.0.1".toList), ("*.example.org".toList, "10.0.0.2".toList)]
      (by decide) "*.example.org".toList "10.0.0.2".toList (by decide) _ _ 0 0 _).2
      "example.org".toList (by decide) (by decide) (by decide)⟩

/-- Counterexample to C3 as stated, at two inputs.
(1) Rules `example.com ↦ 10.0.0.1` and `*.example.com ↦ 10.0.0.2`: for the wildcard key
`*.example.com`, looking up `example.com` gives `10.0.0.1` with the tag `domain rule`,
because the exact rule is tried first.
(2) Rule `example.com. ↦ 10.0.0.5`: looking up the key `example.com.` finds no rule. -/
theorem splitRules_lookup_roundtrip_fails :
    (("*.example.com".toList, "10.0.0.2".toList) ∈
        [("example.com".toList, "10.0.0.1".toList),
         ("*.example.com".toList, "10.0.0.2".toList)] ∧
      resolveDomain
        (splitRules Globals.init
          [("example.com".toList, "10.0.0.1".toList),
           ("*.example.com".toList, "10.0.0.2".toList)])
        (fun _ _ => HttpExchange.doError) 0 0 "https://doh/".toList "example.com".toList =
        ⟨"10.0.0.1".toList, "domain rule".toList, GoMap.empty, []⟩) ∧
    (("example.com.".toList, "10.0.0.5".toList) ∈
        [("example.com.".toList, "10.0.0.5".toList)] ∧
      HasPrefix "example.com.".toList ['*', '.'] = false ∧
      resolveDomain
        (splitRules Globals.init [("example.com.".toList, "10.0.0.5".toList)])
        (fun _ _ => HttpExchange.doError) 0 0 "https://doh/".toList "example.com.".toList =
        ⟨[], [], GoMap.empty, ["example.com".toList]⟩) := by
  refine ⟨⟨by decide, ?_⟩, by decide, by decide, ?_⟩
  · rw [resolveDomain_of_exact _ _ _ _ _ _ "10.0.0.1".toList (by decide)]
    rfl
  · have h1 : TrimSuffix "example.com.".toList ['.'] = "example.com".toList := by decide
    rw [resolveDomain, h1]
    have h2 : subDomainLoop
        (splitRules Globals.init
          [("example.com.".toList, "10.0.0.5".toList)]).matchDomainAndSubDomainMap
        "example.com".toList = (none, ["example.com".toList, "com".toList]) := by
      rw [subDomainLoop_next _ _ "example".toList "com".toList [] (by decide) (by decide),
        subDomainLoop_last _ _ (by decide) (by decide)]
    simp only [h2]
    rfl

/-- C4.  Let `d` be a domain which, compared as the pipeline compares it (without its
trailing `.`), has no exact rule and is covered by no suffix rule.  If the cache holds
`(ip, expireAt)` under the key `d` without its trailing `.`, and the clock reads
less than `expireAt`, then `resolveDomain d` returns `ip` with the tag `cache`,
makes no call of the DoH client and leaves the cache unchanged. -/
theorem resolveDomain_cache_hit (g : Globals) (net : Network) (nowLoad nowStore : Time)
    (dohURL d ip : GoString) (expireAt : Time)
    (hexact : g.matchDomainMap (TrimSuffix d ['.']) = none)
    (hwild : ∀ s, coveredBy (TrimSuffix d ['.']) s → g.matchDomainAndSubDomainMap s = none)
    (hentry : g.ipCache (TrimSuffix d ['.']) = some ⟨ip, expireAt⟩)
    (hfresh : nowLoad < expireAt) :
    resolveDomain g net nowLoad nowStore dohURL d = ⟨ip, "cache".toList, g.ipCache, []⟩ := by
  rw [resolveDomain_of_norule g net nowLoad nowStore dohURL d hexact hwild, hentry]
  simp only [hfresh, if_true]

/-- Witness for C4: no rules, the cache holds `example.com ↦ (93.184.216.34, 1000)`,
the clock reads 999, the query name is `example.com.`. -/
theorem resolveDomain_cache_hit_witness :
    resolveDomain
      { Globals.init with
        ipCache := GoMap.empty.store "example.com".toList ⟨"93.184.216.34".toList, 1000⟩ }
      (fun _ _ => HttpExchange.response 200 (some [⟨1, "1.2.3.4".toList⟩]))
      999 999 "https://doh/".toList "example.com.".toList =
      ⟨"93.184.216.34".toList, "cache".toList,
        GoMap.empty.store "example.com".toList ⟨"93.184.216.34".toList, 1000⟩, []⟩ :=
  resolveDomain_cache_hit
    { Globals.init with
      ipCache := GoMap.empty.store "example.com".toList ⟨"93.184.216.34".toList, 1000⟩ }
    _ 999 999 _ "example.com.".toList "93.184.216.34".toList 1000
    (by decide) (fun _ _ => rfl) (by decide) (by decide)

/-- C5 (as amended).  Let `d` be a domain which (without its trailing `.`) matches no
rule, and let the cache hold no entry for it or an entry whose expiry is not after the
clock reading (`now = expireAt` included).  Then `resolveDomain d` calls the DoH client
exactly once.  When that call returns a non-empty `ip`, the result is `ip` with the tag
`DoH`, the cache entry of `d` is overwritten by `(ip, nowStore + 10 minutes)`, and after
any further calls of `resolveDomain` made one after another (none overlapping another)
with clock readings before that expiry, a call `resolveDomain d` made before that
expiry returns `ip` with the tag `cache`. -/
theorem resolveDomain_cache_miss (g : Globals) (net : Network) (nowLoad nowStore : Time)
    (dohURL d : GoString)
    (hexact : g.matchDomainMap (TrimSuffix d ['.']) = none)
    (hwild : ∀ s, coveredBy (TrimSuffix d ['.']) s → g.matchDomainAndSubDomainMap s = none)
    (hstale : ∀ e, g.ipCache (TrimSuffix d ['.']) = some e → e.ExpireAt ≤ nowLoad) :
    (resolveDomain g net nowLoad nowStore dohURL d).dohCalls = [TrimSuffix d ['.']] ∧
    (resolveDomainOverDoH net dohURL (TrimSuffix d ['.']) ≠ [] →
      resolveDomain g net nowLoad nowStore dohURL d =
        ⟨resolveDomainOverDoH net dohURL (TrimSuffix d ['.']), "DoH".toList,
          g.ipCache.store (TrimSuffix d ['.'])
            ⟨resolveDomainOverDoH net dohURL (TrimSuffix d ['.']), nowStore + 10 * Minute⟩,
          [TrimSuffix d ['.']]⟩ ∧
      ∀ (calls : List Call) (net' : Network) (nowLoad' nowStore' : Time)
        (dohURL' : GoString),
        (∀ c ∈ calls, c.nowLoad < nowStore + 10 * Minute) →
        nowLoad' < nowStore + 10 * Minute →
        (resolveDomain
          (resolveDomainSeq
            { g with ipCache := (resolveDomain g net nowLoad nowStore dohURL d).ipCache }
            calls)
          net' nowLoad' nowStore' dohURL' d).ip =
            resolveDomainOverDoH net dohURL (TrimSuffix d ['.']) ∧
        (resolveDomain
          (resolveDomainSeq
            { g with ipCache := (resolveDomain g net nowLoad nowStore dohURL d).ipCache }
            calls)
          net' nowLoad' nowStore' dohURL' d).source = "cache".toList ∧
        (resolveDomain
          (resolveDomainSeq
            { g with ipCache := (resolveDomain g net nowLoad nowStore dohURL d).ipCache }
            calls)
          net' nowLoad' nowStore' dohURL' d).dohCalls = []) := by
  have hres : resolveDomain g net nowLoad nowStore dohURL d =
      resolveDomainFallback g net nowStore dohURL (TrimSuffix d ['.'])
        (TrimSuffix d ['.']) := by
    rw [resolveDomain_of_norule g net nowLoad nowStore dohURL d hexact hwild]
    cases hc : g.ipCache (TrimSuffix d ['.']) with
    | none => rfl
    | some e =>
      have := hstale e hc
      simp only [not_lt.2 this, if_false]
  have hcalls : (resolveDomainFallback g net nowStore dohURL (TrimSuffix d ['.'])
      (TrimSuffix d ['.'])).dohCalls = [TrimSuffix d ['.']] := by
    unfold resolveDomainFallback
    simp only
    split <;> rfl
  refine ⟨by rw [hres, hcalls], ?_⟩
  intro hip
  have hfb : resolveDomainFallback g net nowStore dohURL (TrimSuffix d ['.'])
      (TrimSuffix d ['.']) =
      ⟨resolveDomainOverDoH net dohURL (TrimSuffix d ['.']), "DoH".toList,
        g.ipCache.store (TrimSuffix d ['.'])
          ⟨resolveDomainOverDoH net dohURL (TrimSuffix d ['.']), nowStore + 10 * Minute⟩,
        [TrimSuffix d ['.']]⟩ := by
    unfold resolveDomainFallback
    simp only [hip, ne_eq, not_false_eq_true, if_true]
  refine ⟨by rw [hres, hfb], ?_⟩
  intro calls net' nowLoad' nowStore' dohURL' hcs hnl
  rw [hres, hfb]
  simp only
  have hkeep := resolveDomainSeq_keeps_entry (TrimSuffix d ['.'])
    ⟨resolveDomainOverDoH net dohURL (TrimSuffix d ['.']), nowStore + 10 * Minute⟩ calls
    { g with ipCache := (g.ipCache.store (TrimSuffix d ['.'])
        ⟨resolveDomainOverDoH net dohURL (TrimSuffix d ['.']), nowStore + 10 * Minute⟩) }
    (by simp [GoMap.store]) hcs
  obtain ⟨hr1, hr2⟩ := resolveDomainSeq_rules calls
    { g with ipCache := (g.ipCache.store (TrimSuffix d ['.'])
        ⟨resolveDomainOverDoH net dohURL (TrimSuffix d ['.']), nowStore + 10 * Minute⟩) }
  rw [resolveDomain_of_norule _ net' nowLoad' nowStore' dohURL' d
    (by rw [hr1]; exact hexact) (by rw [hr2]; exact hwild), hkeep]
  simp only [hnl, if_true, and_self]

/-- Witness for C5: no rules, empty cache, the DoH answer lists a CNAME entry and then
the A entry `93.184.216.34`; the store happens at clock reading 7.  The first call
makes one DoH request for `example.com`; a call for another name and then a second
call for `example.com.`, one nanosecond before the expiry and with a dead network,
give the cached address. -/
theorem resolveDomain_cache_miss_witness :
    (resolveDomain Globals.init
      (fun _ _ => HttpExchange.response 200
        (some [⟨5, "example.net.".toList⟩, ⟨1, "93.184.216.34".toList⟩]))
      0 7 "https://doh/".toList "example.com.".toList).dohCalls = ["example.com".toList] ∧
    resolveDomain Globals.init
      (fun _ _ => HttpExchange.response 200
        (some [⟨5, "example.net.".toList⟩, ⟨1, "93.184.216.34".toList⟩]))
      0 7 "https://doh/".toList "example.com.".toList =
      ⟨"93.184.216.34".toList, "DoH".toList,
        GoMap.empty.store "example.com".toList ⟨"93.184.216.34".toList, 600000000007⟩,
        ["example.com".toList]⟩ ∧
    (resolveDomain
      (resolveDomainSeq
        { Globals.init with
          ipCache := (resolveDomain Globals.init
            (fun _ _ => HttpExchange.response 200
              (some [⟨5, "example.net.".toList⟩, ⟨1, "93.184.216.34".toList⟩]))
            0 7 "https://doh/".toList "example.com.".toList).ipCache }
        [⟨fun _ _ => HttpExchange.response 200 (some [⟨1, "10.1.1.1".toList⟩]),
          8, 9, "https://doh/".toList, "other.org.".toList⟩])
      (fun _ _ => HttpExchange.doError) 600000000006 600000000006 "https://doh/".toList
      "example.com.".toList).ip = "93.184.216.34".toList :=
  have h := resolveDomain_cache_miss Globals.init
    (fun _ _ => HttpExchange.response 200
      (some [⟨5, "example.net.".toList⟩, ⟨1, "93.184.216.34".toList⟩]))
    0 7 "https://doh/".toList "example.com.".toList
    (by decide) (fun _ _ => rfl) (fun e he => by cases he)
  ⟨h.1, (h.2 (by decide)).1,
    ((h.2 (by decide)).2
      [⟨fun _ _ => HttpExchange.response 200 (some [⟨1, "10.1.1.1".toList⟩]),
        8, 9, "https://doh/".toList, "other.org.".toList⟩]
      (fun _ _ => HttpExchange.doError) 600000000006 600000000006 "https://doh/".toList
      (by decide) (by decide)).1⟩

/-- Counterexample to C5 as stated: no rules, empty cache.  Call `a` for `example.com.`
misses the cache, gets `1.1.1.1` from DoH and stores it at clock reading 10.  Call `b`
for the same name overlaps it: it also loaded the empty cache (reading 5), gets
`2.2.2.2` from DoH and stores it at reading 20.  A call at reading 30, long before the
expiry of the entry written by `a`, returns `2.2.2.2` from the cache, not `1.1.1.1`. -/
theorem resolveDomain_cache_miss_overlap :
    (resolveDomainOverlap Globals.init
      ⟨fun _ _ => HttpExchange.response 200 (some [⟨1, "1.1.1.1".toList⟩]),
        0, 10, "https://doh/".toList, "example.com.".toList⟩
      ⟨fun _ _ => HttpExchange.response 200 (some [⟨1, "2.2.2.2".toList⟩]),
        5, 20, "https://doh/".toList, "example.com.".toList⟩).1.ip = "1.1.1.1".toList ∧
    (resolveDomainOverlap Globals.init
      ⟨fun _ _ => HttpExchange.response 200 (some [⟨1, "1.1.1.1".toList⟩]),
        0, 10, "https://doh/".toList, "example.com.".toList⟩
      ⟨fun _ _ => HttpExchange.response 200 (some [⟨1, "2.2.2.2".toList⟩]),
        5, 20, "https://doh/".toList, "example.com.".toList⟩).1.source = "DoH".toList ∧
    (resolveDomainOverlap Globals.init
      ⟨fun _ _ => HttpExchange.response 200 (some [⟨1, "1.1.1.1".toList⟩]),
        0, 10, "https://doh/".toList, "example.com.".toList⟩
      ⟨fun _ _ => HttpExchange.response 200 (some [⟨1, "2.2.2.2".toList⟩]),
        5, 20, "https://doh/".toList, "example.com.".toList⟩).1.ipCache
      "example.com".toList = some ⟨"1.1.1.1".toList, 10 + 10 * Minute⟩ ∧
    (30 : Time) < 10 + 10 * Minute ∧
    "2.2.2.2".toList ≠ "1.1.1.1".toList ∧
    (resolveDomain
      { Globals.init with
        ipCache := (resolveDomainOverlap Globals.init
          ⟨fun _ _ => HttpExchange.response 200 (some [⟨1, "1.1.1.1".toList⟩]),
            0, 10, "https://doh/".toList, "example.com.".toList⟩
          ⟨fun _ _ => HttpExchange.response 200 (some [⟨1, "2.2.2.2".toList⟩]),
            5, 20, "https://doh/".toList, "example.com.".toList⟩).2.ipCache }
      (fun _ _ => HttpExchange.doError) 30 30 "https://doh/".toList
      "example.com.".toList).ip = "2.2.2.2".toList ∧
    (resolveDomain
      { Globals.init with
        ipCache := (resolveDomainOverlap Globals.init
          ⟨fun _ _ => HttpExchange.response 200 (some [⟨1, "1.1.1.1".toList⟩]),
            0, 10, "https://doh/".toList, "example.com.".toList⟩
          ⟨fun _ _ => HttpExchange.response 200 (some [⟨1, "2.2.2.2".toList⟩]),
            5, 20, "https://doh/".toList, "example.com.".toList⟩).2.ipCache }
      (fun _ _ => HttpExchange.doError) 30 30 "https://doh/".toList
      "example.com.".toList).source = "cache".toList := by
  have hov : resolveDomainOverlap Globals.init
      ⟨fun _ _ => HttpExchange.response 200 (some [⟨1, "1.1.1.1".toList⟩]),
        0, 10, "https://doh/".toList, "example.com.".toList⟩
      ⟨fun _ _ => HttpExchange.response 200 (some [⟨1, "2.2.2.2".toList⟩]),
        5, 20, "https://doh/".toList, "example.com.".toList⟩ =
      (⟨"1.1.1.1".toList, "DoH".toList,
          GoMap.empty.store "example.com".toList ⟨"1.1.1.1".toList, 10 + 10 * Minute⟩,
          ["example.com".toList]⟩,
       ⟨"2.2.2.2".toList, "DoH".toList,
          (GoMap.empty.store "example.com".toList
            ⟨"1.1.1.1".toList, 10 + 10 * Minute⟩).store "example.com".toList
            ⟨"2.2.2.2".toList, 20 + 10 * Minute⟩,
          ["example.com".toList]⟩) := by
    unfold resolveDomainOverlap
    simp only
    rw [resolveDomain_of_norule Globals.init _ 0 10 _ "example.com.".toList (by decide)
        (fun _ _ => rfl),
      resolveDomainLookup_of_norule Globals.init 5 "example.com.".toList (by decide)
        (fun _ _ => rfl)]
    rfl
  rw [hov]
  refine ⟨rfl, rfl, by decide, by decide, by decide, ?_, ?_⟩
  · rw [resolveDomain_of_norule _ _ 30 30 _ "example.com.".toList (by decide)
      (fun _ _ => rfl)]
    rfl
  · rw [resolveDomain_of_norule _ _ 30 30 _ "example.com.".toList (by decide)
      (fun _ _ => rfl)]
    rfl

/-- C6.  Let `d` be a domain which (without its trailing `.`) matches no rule and has
no unexpired cache entry.  If the DoH client returns the empty string, `resolveDomain d`
returns the empty IP and the empty tag, and the cache after the call is the cache
before the call. -/
theorem resolveDomain_doh_failure (g : Globals) (net : Network) (nowLoad nowStore : Time)
    (dohURL d : GoString)
    (hexact : g.matchDomainMap (TrimSuffix d ['.']) = none)
    (hwild : ∀ s, coveredBy (TrimSuffix d ['.']) s → g.matchDomainAndSubDomainMap s = none)
    (hstale : ∀ e, g.ipCache (TrimSuffix d ['.']) = some e → e.ExpireAt ≤ nowLoad)
    (hdoh : resolveDomainOverDoH net dohURL (TrimSuffix d ['.']) = []) :
    resolveDomain g net nowLoad nowStore dohURL d =
      ⟨[], [], g.ipCache, [TrimSuffix d ['.']]⟩ := by
  have hfb : resolveDomainFallback g net nowStore dohURL (TrimSuffix d ['.'])
      (TrimSuffix d ['.']) = ⟨[], [], g.ipCache, [TrimSuffix d ['.']]⟩ := by
    unfold resolveDomainFallback
    simp only [hdoh, ne_eq, not_true_eq_false, if_false]
  rw [resolveDomain_of_norule g net nowLoad nowStore dohURL d hexact hwild]
  cases hc : g.ipCache (TrimSuffix d ['.']) with
  | none => exact hfb
  | some e =>
    have := hstale e hc
    simp only [not_lt.2 this, if_false]
    exact hfb

/-- Witness for C6: no rules, the cache holds an entry for `example.com` that expires
exactly at the clock reading, and the DoH request fails. -/
theorem resolveDomain_doh_failure_witness :
    resolveDomain
      { Globals.init with
        ipCache := GoMap.empty.store "example.com".toList ⟨"93.184.216.34".toList, 1000⟩ }
      (fun _ _ => HttpExchange.doError) 1000 1001 "https://doh/".toList
      "example.com.".toList =
      ⟨[], [], GoMap.empty.store "example.com".toList ⟨"93.184.216.34".toList, 1000⟩,
        ["example.com".toList]⟩ :=
  resolveDomain_doh_failure
    { Globals.init with
      ipCache := GoMap.empty.store "example.com".toList ⟨"93.184.216.34".toList, 1000⟩ }
    (fun _ _ => HttpExchange.doError) 1000 1001 "https://doh/".toList "example.com.".toList
    (by decide) (fun _ _ => rfl)
    (fun e he => by
      have hc : (GoMap.empty.store "example.com".toList
          (⟨"93.184.216.34".toList, 1000⟩ : IPCacheEntry))
          (TrimSuffix "example.com.".toList ['.']) =
          some ⟨"93.184.216.34".toList, 1000⟩ := by decide
      have he' : some (⟨"93.184.216.34".toList, 1000⟩ : IPCacheEntry) = some e :=
        hc.symm.trans he
      cases he'
      decide)
    (by decide)

/-- C7 (as amended).  For every domain `d` that does not itself end in `.`, and every
rule table, cache, clock and network, `resolveDomain (d ++ ".")` gives the same IP,
tag, resulting cache and DoH calls as `resolveDomain d`. -/
theorem resolveDomain_trailing_dot (g : Globals) (net : Network) (nowLoad nowStore : Time)
    (dohURL d : GoString) (hd : HasSuffix d ['.'] = false) :
    resolveDomain g net nowLoad nowStore dohURL (d ++ ['.']) =
      resolveDomain g net nowLoad nowStore dohURL d := by
  have h1 : TrimSuffix (d ++ ['.']) ['.'] = d := TrimSuffix_append d ['.']
  have h2 : TrimSuffix d ['.'] = d := by simp [TrimSuffix, hd]
  unfold resolveDomain
  simp only [h1, h2]

/-- Witness for C7: `example.com.` and `example.com`. -/
theorem resolveDomain_trailing_dot_witness :
    HasSuffix "example.com".toList ['.'] = false ∧
    resolveDomain
      (splitRules Globals.init [("*.example.com".toList, "10.0.0.5".toList)])
      (fun _ _ => HttpExchange.doError) 0 0 "https://doh/".toList
      ("example.com".toList ++ ['.']) =
    resolveDomain
      (splitRules Globals.init [("*.example.com".toList, "10.0.0.5".toList)])
      (fun _ _ => HttpExchange.doError) 0 0 "https://doh/".toList "example.com".toList :=
  ⟨by decide, resolveDomain_trailing_dot _ _ 0 0 _ "example.com".toList (by decide)⟩

/-- Counterexample to C7 as stated: with the rule `example.com ↦ 10.0.0.5` and
`d = "example.com."`, `resolveDomain d` answers `10.0.0.5` from the rule while
`resolveDomain (d ++ ".")` looks up `example.com.`, finds no rule and (the DoH request
failing) returns the empty IP: only one trailing `.` is removed. -/
theorem resolveDomain_trailing_dot_twice :
    (resolveDomain
      (splitRules Globals.init [("example.com".toList, "10.0.0.5".toList)])
      (fun _ _ => HttpExchange.doError) 0 0 "https://doh/".toList
      "example.com.".toList).ip = "10.0.0.5".toList ∧
    (resolveDomain
      (splitRules Globals.init [("example.com".toList, "10.0.0.5".toList)])
      (fun _ _ => HttpExchange.doError) 0 0 "https://doh/".toList
      ("example.com.".toList ++ ['.'])).ip = [] := by
  constructor
  · rw [resolveDomain_of_exact _ _ _ _ _ _ "10.0.0.5".toList (by decide)]
  · have h1 : TrimSuffix ("example.com.".toList ++ ['.']) ['.'] = "example.com.".toList := by
      decide
    rw [resolveDomain, h1]
    have h2 : subDomainLoop
        (splitRules Globals.init
          [("example.com".toList, "10.0.0.5".toList)]).matchDomainAndSubDomainMap
        "example.com.".toList =
        (none, ["example.com.".toList, "com.".toList, []]) := by
      rw [subDomainLoop_next _ _ "example".toList "com.".toList [] (by decide) (by decide),
        subDomainLoop_next _ _ "com".toList [] [] (by decide) (by decide),
        subDomainLoop_last _ _ (by decide) (by decide)]
    simp only [h2]
    rfl

/-- C8.  For a response with status 200 whose body decodes to the list `answers`,
`resolveDomainOverDoH` returns the `Data` of the first entry, in list order, whose
`Type_` is 1 (and the empty string when there is none); hence it returns the empty
string exactly when no entry has type 1 or the first entry of type 1 has empty data. -/
theorem resolveDomainOverDoH_first_A (net : Network) (dohURL domain : GoString)
    (answers : List DoHAnswer)
    (hresp : net dohURL domain = HttpExchange.response 200 (some answers)) :
    ((∃ before a after, answers = before ++ a :: after ∧ (∀ b ∈ before, b.Type_ ≠ 1) ∧
        a.Type_ = 1 ∧ resolveDomainOverDoH net dohURL domain = a.Data) ∨
      ((∀ b ∈ answers, b.Type_ ≠ 1) ∧ resolveDomainOverDoH net dohURL domain = [])) ∧
    (resolveDomainOverDoH net dohURL domain = [] ↔
      ((∀ b ∈ answers, b.Type_ ≠ 1) ∨
        ∃ before a after, answers = before ++ a :: after ∧ (∀ b ∈ before, b.Type_ ≠ 1) ∧
          a.Type_ = 1 ∧ a.Data = [])) := by
  have hres : resolveDomainOverDoH net dohURL domain = scanAnswers answers := by
    simp [resolveDomainOverDoH, hresp, StatusOK]
  rw [hres]
  clear hres hresp
  induction answers with
  | nil =>
    refine ⟨Or.inr ⟨by simp, rfl⟩, ?_⟩
    simp [scanAnswers]
  | cons x xs ih =>
    by_cases hx : x.Type_ = 1
    · have hs : scanAnswers (x :: xs) = x.Data := by simp [scanAnswers, TypeA, hx]
      rw [hs]
      refine ⟨Or.inl ⟨[], x, xs, rfl, by simp, hx, rfl⟩, ?_⟩
      constructor
      · intro h0
        exact Or.inr ⟨[], x, xs, rfl, by simp, hx, h0⟩
      · rintro (hno | ⟨before, a, after, heq, hb, ha, hdata⟩)
        · exact (hno x (List.mem_cons_self _ _) hx).elim
        · cases before with
          | nil =>
            simp only [List.nil_append, List.cons.injEq] at heq
            rw [heq.1]; exact hdata
          | cons y ys =>
            simp only [List.cons_append, List.cons.injEq] at heq
            exact (hb y (List.mem_cons_self _ _) (heq.1 ▸ hx)).elim
    · have hs : scanAnswers (x :: xs) = scanAnswers xs := by simp [scanAnswers, TypeA, hx]
      rw [hs]
      obtain ⟨ih1, ih2⟩ := ih
      constructor
      · rcases ih1 with ⟨before, a, after, heq, hb, ha, hr⟩ | ⟨hno, hr⟩
        · refine Or.inl ⟨x :: before, a, after, by rw [heq]; rfl, ?_, ha, hr⟩
          intro b hbm
          rcases List.mem_cons.1 hbm with rfl | hbm
          · exact hx
          · exact hb b hbm
        · refine Or.inr ⟨?_, hr⟩
          intro b hbm
          rcases List.mem_cons.1 hbm with rfl | hbm
          · exact hx
          · exact hno b hbm
      · rw [ih2]
        constructor
        · rintro (hno | ⟨before, a, after, heq, hb, ha, hdata⟩)
          · left
            intro b hbm
            rcases List.mem_cons.1 hbm with rfl | hbm
            · exact hx
            · exact hno b hbm
          · right
            refine ⟨x :: before, a, after, by rw [heq]; rfl, ?_, ha, hdata⟩
            intro b hbm
            rcases List.mem_cons.1 hbm with rfl | hbm
            · exact hx
            · exact hb b hbm
        · rintro (hno | ⟨before, a, after, heq, hb, ha, hdata⟩)
          · exact Or.inl (fun b hbm => hno b (List.mem_cons_of_mem _ hbm))
          · cases before with
            | nil =>
              simp only [List.nil_append, List.cons.injEq] at heq
              exact (hx (heq.1 ▸ ha)).elim
            | cons y ys =>
              simp only [List.cons_append, List.cons.injEq] at heq
              exact Or.inr ⟨ys, a, after, heq.2, fun b hbm => hb b (List.mem_cons_of_mem _ hbm),
                ha, hdata⟩

/-- Witness for C8: the answer list holds a CNAME entry (type 5) followed by two A
entries; the data of the first A entry is returned. -/
theorem resolveDomainOverDoH_first_A_witness :
    resolveDomainOverDoH
      (fun _ _ => HttpExchange.response 200
        (some [⟨5, "example.net.".toList⟩, ⟨1, "10.0.0.1".toList⟩, ⟨1, "10.0.0.2".toList⟩]))
      "https://doh/".toList "example.com".toList = "10.0.0.1".toList ∧
    (resolveDomainOverDoH
      (fun _ _ => HttpExchange.response 200
        (some [⟨5, "example.net.".toList⟩, ⟨1, "10.0.0.1".toList⟩, ⟨1, "10.0.0.2".toList⟩]))
      "https://doh/".toList "example.com".toList = [] ↔
      ((∀ b ∈ ([⟨5, "example.net.".toList⟩, ⟨1, "10.0.0.1".toList⟩,
          ⟨1, "10.0.0.2".toList⟩] : List DoHAnswer), b.Type_ ≠ 1) ∨
        ∃ before a after,
          ([⟨5, "example.net.".toList⟩, ⟨1, "10.0.0.1".toList⟩,
            ⟨1, "10.0.0.2".toList⟩] : List DoHAnswer) = before ++ a :: after ∧
          (∀ b ∈ before, b.Type_ ≠ 1) ∧ a.Type_ = 1 ∧ a.Data = [])) :=
  ⟨by decide,
    (resolveDomainOverDoH_first_A
      (fun _ _ => HttpExchange.response 200
        (some [⟨5, "example.net.".toList⟩, ⟨1, "10.0.0.1".toList⟩, ⟨1, "10.0.0.2".toList⟩]))
      "https://doh/".toList "example.com".toList _ rfl).2⟩

/-- C9 (as amended).  Let `t` be `d` without its trailing `.`, with no exact rule.
If `s` is the longest key of the suffix map that equals `t` or is reached from `t` by
removing whole leading labels, then `resolveDomain d` returns the IP stored under `s`
with the tag `subdomain rule`; `s` is the last candidate the walk tests, and no
candidate tested before it is a key. -/
theorem resolveDomain_longest_suffix (g : Globals) (net : Network)
    (nowLoad nowStore : Time) (dohURL d s ip : GoString)
    (hexact : g.matchDomainMap (TrimSuffix d ['.']) = none)
    (hcov : coveredBy (TrimSuffix d ['.']) s)
    (hkey : g.matchDomainAndSubDomainMap s = some ip)
    (hlong : ∀ s', coveredBy (TrimSuffix d ['.']) s' →
      g.matchDomainAndSubDomainMap s' ≠ none → s'.length ≤ s.length) :
    resolveDomain g net nowLoad nowStore dohURL d =
      ⟨ip, "subdomain rule".toList, g.ipCache, []⟩ ∧
    ∃ earlier,
      (subDomainLoop g.matchDomainAndSubDomainMap (TrimSuffix d ['.'])).2 = earlier ++ [s] ∧
      ∀ c ∈ earlier, g.matchDomainAndSubDomainMap c = none := by
  obtain ⟨h1, h2⟩ := subDomainLoop_longest g.matchDomainAndSubDomainMap
    (TrimSuffix d ['.']) s ip hcov hkey hlong
  refine ⟨resolveDomain_of_loop g net nowLoad nowStore dohURL d ip hexact h1, ?_⟩
  obtain ⟨_, _, _, hdrop, _⟩ := subDomainLoop_trace g.matchDomainAndSubDomainMap
    (TrimSuffix d ['.'])
  refine ⟨_, ?_, hdrop⟩
  have hne : (subDomainLoop g.matchDomainAndSubDomainMap (TrimSuffix d ['.'])).2 ≠ [] := by
    intro h0
    rw [h0] at h2
    simp at h2
  have hlast := List.dropLast_append_getLast hne
  rw [List.getLast?_eq_getLast _ hne, Option.some.injEq] at h2
  rw [h2] at hlast
  exact hlast.symm

/-- Witness for C9: rules `*.a.example.com ↦ 10.0.0.1` and `*.example.com ↦ 10.0.0.2`;
`b.a.example.com` resolves to `10.0.0.1`, after testing `b.a.example.com` first. -/
theorem resolveDomain_longest_suffix_witness :
    resolveDomain
      (splitRules Globals.init
        [("*.a.example.com".toList, "10.0.0.1".toList),
         ("*.example.com".toList, "10.0.0.2".toList)])
      (fun _ _ => HttpExchange.doError) 0 0 "https://doh/".toList "b.a.example.com".toList =
      ⟨"10.0.0.1".toList, "subdomain rule".toList, GoMap.empty, []⟩ ∧
    ∃ earlier,
      (subDomainLoop
        (splitRules Globals.init
          [("*.a.example.com".toList, "10.0.0.1".toList),
           ("*.example.com".toList, "10.0.0.2".toList)]).matchDomainAndSubDomainMap
        (TrimSuffix "b.a.example.com".toList ['.'])).2 =
        earlier ++ ["a.example.com".toList] ∧
      ∀ c ∈ earlier,
        (splitRules Globals.init
          [("*.a.example.com".toList, "10.0.0.1".toList),
           ("*.example.com".toList, "10.0.0.2".toList)]).matchDomainAndSubDomainMap c = none :=
  resolveDomain_longest_suffix
    (splitRules Globals.init
      [("*.a.example.com".toList, "10.0.0.1".toList),
       ("*.example.com".toList, "10.0.0.2".toList)])
    (fun _ _ => HttpExchange.doError) 0 0 "https://doh/".toList "b.a.example.com".toList
    "a.example.com".toList "10.0.0.1".toList (by decide) (by decide) (by decide)
    (fun s' _ hne => by
      cases hs : (splitRules Globals.init
          [("*.a.example.com".toList, "10.0.0.1".toList),
           ("*.example.com".toList, "10.0.0.2".toList)]).matchDomainAndSubDomainMap s' with
      | none => exact (hne hs).elim
      | some ip' =>
        rcases splitRules_sub_inv s' ip' _ Globals.init hs with h0 | hr
        · cases h0
        · simp only [List.mem_cons, Prod.mk.injEq, List.mem_singleton, List.not_mem_nil,
            or_false] at hr
          rcases hr with ⟨h1, _⟩ | ⟨h1, _⟩
          · have h2 : ['*', '.'] ++ s' = ['*', '.'] ++ "a.example.com".toList := h1
            rw [List.append_cancel_left h2]
          · have h2 : ['*', '.'] ++ s' = ['*', '.'] ++ "example.com".toList := h1
            rw [List.append_cancel_left h2]
            decide)

/-- Counterexample to C9 as stated: the suffix map built from the rule
`*.example.com. ↦ 10.0.0.5` has the key `example.com.`, which equals the domain
`example.com.`, and there is no exact rule; yet the walk starts from `example.com`,
tests `example.com` and `com`, matches nothing, and (the DoH request failing) the
result is the empty IP. -/
theorem resolveDomain_longest_suffix_trailing_dot :
    (splitRules Globals.init
      [("*.example.com.".toList, "10.0.0.5".toList)]).matchDomainAndSubDomainMap
      "example.com.".toList = some "10.0.0.5".toList ∧
    (splitRules Globals.init
      [("*.example.com.".toList, "10.0.0.5".toList)]).matchDomainMap
      "example.com.".toList = none ∧
    resolveDomain
      (splitRules Globals.init [("*.example.com.".toList, "10.0.0.5".toList)])
      (fun _ _ => HttpExchange.doError) 0 0 "https://doh/".toList "example.com.".toList =
      ⟨[], [], GoMap.empty, ["example.com".toList]⟩ := by
  refine ⟨by decide, by decide, ?_⟩
  have h1 : TrimSuffix "example.com.".toList ['.'] = "example.com".toList := by decide
  rw [resolveDomain, h1]
  have h2 : subDomainLoop
      (splitRules Globals.init
        [("*.example.com.".toList, "10.0.0.5".toList)]).matchDomainAndSubDomainMap
      "example.com".toList = (none, ["example.com".toList, "com".toList]) := by
    rw [subDomainLoop_next _ _ "example".toList "com".toList [] (by decide) (by decide),
      subDomainLoop_last _ _ (by decide) (by decide)]
  simp only [h2]
  rfl

/-- C10.  For every domain string `d` the suffix walk of `resolveDomain` ends (the model
of the loop is a total function).  Writing `t` for `d` without its trailing `.`: the
walk starts at `t`; each tested candidate is followed by the text after its first `.`,
which is strictly shorter; at most (number of `.` in `t`) + 1 candidates are tested;
a walk started at a candidate without `.` tests that candidate only; and when no
suffix rule covers `t`, exactly (number of `.` in `t`) + 1 candidates are tested, the
last one contains no `.`, and `resolveDomain` goes on to the cache lookup. -/
theorem subDomainLoop_candidates (g : Globals) (net : Network) (nowLoad nowStore : Time)
    (dohURL d : GoString) :
    (∃ rest, (subDomainLoop g.matchDomainAndSubDomainMap (TrimSuffix d ['.'])).2 =
      TrimSuffix d ['.'] :: rest) ∧
    List.Chain'
      (fun c c' => (∃ a, '.' ∉ a ∧ c = a ++ '.' :: c') ∧ c'.length < c.length)
      (subDomainLoop g.matchDomainAndSubDomainMap (TrimSuffix d ['.'])).2 ∧
    (subDomainLoop g.matchDomainAndSubDomainMap (TrimSuffix d ['.'])).2.length ≤
      (TrimSuffix d ['.']).count '.' + 1 ∧
    (∀ c, '.' ∉ c → (subDomainLoop g.matchDomainAndSubDomainMap c).2 = [c]) ∧
    ((∀ s, coveredBy (TrimSuffix d ['.']) s → g.matchDomainAndSubDomainMap s = none) →
      (subDomainLoop g.matchDomainAndSubDomainMap (TrimSuffix d ['.'])).1 = none ∧
      (subDomainLoop g.matchDomainAndSubDomainMap (TrimSuffix d ['.'])).2.length =
        (TrimSuffix d ['.']).count '.' + 1 ∧
      (∀ c ∈ (subDomainLoop g.matchDomainAndSubDomainMap (TrimSuffix d ['.'])).2.getLast?,
        '.' ∉ c) ∧
      (g.matchDomainMap (TrimSuffix d ['.']) = none →
        resolveDomain g net nowLoad nowStore dohURL d =
          match g.ipCache (TrimSuffix d ['.']) with
          | some ipEntry =>
            if nowLoad < ipEntry.ExpireAt then
              ⟨ipEntry.IP, "cache".toList, g.ipCache, []⟩
            else resolveDomainFallback g net nowStore dohURL (TrimSuffix d ['.'])
              (TrimSuffix d ['.'])
          | none =>
            resolveDomainFallback g net nowStore dohURL (TrimSuffix d ['.'])
              (TrimSuffix d ['.']))) := by
  obtain ⟨hhead, hchain, hlen, _, hnone⟩ :=
    subDomainLoop_trace g.matchDomainAndSubDomainMap (TrimSuffix d ['.'])
  refine ⟨hhead, ?_, hlen, fun c hc => subDomainLoop_nodot _ c hc, ?_⟩
  · refine List.Chain'.imp ?_ hchain
    rintro c c' ⟨a, ha, hc⟩
    refine ⟨⟨a, ha, hc⟩, ?_⟩
    rw [hc]
    simp only [List.length_append, List.length_cons]
    omega
  · intro hno
    have hr := (subDomainLoop_none_iff g.matchDomainAndSubDomainMap (TrimSuffix d ['.'])).2 hno
    obtain ⟨h1, h2⟩ := hnone hr
    exact ⟨hr, h1, h2,
      fun hexact => resolveDomain_of_norule g net nowLoad nowStore dohURL d hexact hno⟩

/-- The walk on a name with a leading dot and consecutive dots, against an empty suffix
map: `.a..b` has three dots and four candidates are tested. -/
theorem subDomainLoop_dots_example :
    subDomainLoop GoMap.empty ".a..b".toList =
      (none, [".a..b".toList, "a..b".toList, ".b".toList, "b".toList]) ∧
    subDomainLoop GoMap.empty [] = (none, [[]]) := by
  constructor
  · rw [subDomainLoop_next _ _ [] "a..b".toList [] rfl (by decide),
      subDomainLoop_next _ _ "a".toList ".b".toList [] rfl (by decide),
      subDomainLoop_next _ _ [] "b".toList [] rfl (by decide),
      subDomainLoop_last _ _ rfl (by decide)]
  · rw [subDomainLoop_last _ _ rfl (by decide)]

end SimpleDNS
